import Mathlib

/-!
Verification development for the `sz_semantic_search` repository.

The repository's core (per its spec) is the record-processing pipeline in
`semantic_search.py`: a recursive name traversal that drives vector-similarity
lookups (`process_name`, `process_record_for_embed`), the per-line record
augmentation with a `_FORCED_CANDIDATES` block (`process_line`), a
bounded-window scheduler over a thread-pool executor (the module-level loop),
running statistics (`count`/`timeTot`/`timeMin`/`timeMax`/`timesAll`) and the
final percentile report.

This file shallowly embeds those parts:
  * JSON records are a mutual inductive family `JVal`/`JObj`/`JArr`
    (nested mappings, strings, numbers, booleans, null, arrays);
  * the external collaborators (embedding model + pgvector query) are
    abstracted as a `lookup` function argument, exactly at the boundary
    where `process_name` calls `model.encode` and `cursor.execute`;
  * machine floats (latencies) are embedded as exact rationals `ℚ`;
  * the scheduler is given both as a nondeterministic step relation
    (completion order is unconstrained) and as a deterministic executable
    runner used for concrete evaluations;
  * fallible operations (`fut.result()` re-raising, the final report's
    division by a zero count) are embedded with `Except`.
-/

namespace SzSemanticSearch

/-! ## JSON record model

`semantic_search.py` records are `orjson`-parsed JSON values: nested string-keyed
mappings whose leaves are strings, numbers, booleans, null or arrays.
Objects and arrays are their own inductive lists so that structural
recursion/induction over the mutual family is available.
-/

mutual

inductive JVal : Type where
  | str : String → JVal
  | num : Int → JVal
  | bool : Bool → JVal
  | null : JVal
  | obj : JObj → JVal
  | arr : JArr → JVal
  deriving DecidableEq

inductive JObj : Type where
  | nil : JObj
  | cons : String → JVal → JObj → JObj
  deriving DecidableEq

inductive JArr : Type where
  | nil : JArr
  | cons : JVal → JArr → JArr
  deriving DecidableEq

end

/-- Python truthiness (`if not val`) of a JSON value: empty string, zero,
`False`, `None`, empty dict and empty list are falsy. -/
def truthy : JVal → Bool
  | .str s => !(s == "")
  | .num n => !(n == 0)
  | .bool b => b
  | .null => false
  | .obj o => !(o matches .nil)
  | .arr a => !(a matches .nil)

/-- Python `str.upper()` on the character list of a string. -/
def pyUpper (k : String) : List Char := k.data.map Char.toUpper

/-- Python `str.endswith(suffix)` on character lists. -/
def pyEndsWith (s : List Char) (suffix : String) : Bool :=
  suffix.data.isSuffixOf s

/-- The key test of `process_record_for_embed` (semantic_search.py:108):
`key.upper().endswith('NAME_ORG') or key.upper().endswith('NAME_FULL')`. -/
def qualifiesName (k : String) : Bool :=
  pyEndsWith (pyUpper k) "NAME_ORG" || pyEndsWith (pyUpper k) "NAME_FULL"

/-- A similarity-lookup row: a `(DATA_SOURCE, RECORD_ID)` pair, as appended by
`process_name` (semantic_search.py:87, `ret.append([row[0],row[1]])`). -/
abbrev Row := String × String

/-- A similarity lookup abstracts `model.encode(val)` followed by the pgvector
query of `process_name` (semantic_search.py:81–89): it maps the looked-up value
to the rows the cursor returns, in cursor order. -/
abbrev Lookup := JVal → List Row

/-- `process_name` (semantic_search.py:75–89): falsy values short-circuit to
`[]` before `model.encode` is reached; truthy values are encoded and queried. -/
def process_name (lookup : Lookup) (val : JVal) : List Row :=
  if truthy val then lookup val else []

mutual

/-- Contribution of one `(key, val)` item of the loop body of
`process_record_for_embed` (semantic_search.py:104–109): nested dicts are
recursed into, other values are passed to `process_name` when the key ends in
`NAME_ORG`/`NAME_FULL` (case-insensitively). -/
def rowsOfVal (lookup : Lookup) (k : String) : JVal → List Row
  | .obj o => rowsOfObj lookup o
  | v => if qualifiesName k then process_name lookup v else []

/-- `process_record_for_embed` (semantic_search.py:101–110): accumulates the
lookup rows of every item, in key-iteration order. -/
def rowsOfObj (lookup : Lookup) : JObj → List Row
  | .nil => []
  | .cons k v rest => rowsOfVal lookup k v ++ rowsOfObj lookup rest

end

mutual

/-- Instrumentation of the same traversal: the `(key, value)` pairs for which
`process_name` reaches `model.encode` (i.e. the qualifying keys whose value is
truthy), in traversal order.  These are exactly the name values that are
embedded and looked up. -/
def candsOfVal (k : String) : JVal → List (String × JVal)
  | .obj o => candsOfObj o
  | v => if qualifiesName k && truthy v then [(k, v)] else []

/-- The name candidates of a whole record (see `candsOfVal`). -/
def candsOfObj : JObj → List (String × JVal)
  | .nil => []
  | .cons k v rest => candsOfVal k v ++ candsOfObj rest

end

mutual

/-- `semantic_load.py`'s `process_record_for_embed`/`process_name`
(semantic_load.py:70–95) walk records with the identical key test and the
identical `if not val: return` guard before `model.encode`; this returns the
values it would encode, in traversal order. -/
def loadEncodesVal (k : String) : JVal → List JVal
  | .obj o => loadEncodesObj o
  | v => if qualifiesName k then (if truthy v then [v] else []) else []

/-- See `loadEncodesVal`. -/
def loadEncodesObj : JObj → List JVal
  | .nil => []
  | .cons k v rest => loadEncodesVal k v ++ loadEncodesObj rest

end

/-- Keys of a record, in order. -/
def JObj.keys : JObj → List String
  | .nil => []
  | .cons k _ rest => k :: keys rest

/-- Python dict assignment `record[k] = v`: replace in place if the key is
present, else append. -/
def JObj.setKey : JObj → String → JVal → JObj
  | .nil, k, v => .cons k v .nil
  | .cons k' v' rest, k, v =>
      if k' == k then .cons k v rest else .cons k' v' (setKey rest k v)

/-- One entry of the forced-candidate block
(semantic_search.py:135, `{"DATA_SOURCE":dsrc,"RECORD_ID":id}`). -/
def mkForcedEntry (p : Row) : JVal :=
  .obj (.cons "DATA_SOURCE" (.str p.1) (.cons "RECORD_ID" (.str p.2) .nil))

/-- Build a JSON array from a list of values. -/
def JArr.ofList : List JVal → JArr
  | [] => .nil
  | v :: rest => .cons v (ofList rest)

/-- Length of a JSON array. -/
def JArr.length : JArr → Nat
  | .nil => 0
  | .cons _ rest => length rest + 1

/-- The `forced_candidates` dict built in semantic_search.py:132–135:
`{"RECORDS": [{"DATA_SOURCE":..., "RECORD_ID":...}, ...]}` with one entry per
returned row, in returned order. -/
def forcedBlock (rows : List Row) : JVal :=
  .obj (.cons "RECORDS" (.arr (.ofList (rows.map mkForcedEntry))) .nil)

/-- The record mutation performed by `process_line` (semantic_search.py:130–137)
before the record is serialized and submitted to `engine.search_by_attributes`:
collect the lookup rows over the whole record; if any were found, set
`record["_FORCED_CANDIDATES"]`, otherwise leave the record untouched. -/
def augmentRecord (lookup : Lookup) (record : JObj) : JObj :=
  let forced_records := rowsOfObj lookup record
  if forced_records.isEmpty then record
  else record.setKey "_FORCED_CANDIDATES" (forcedBlock forced_records)

/-! ## Statistics aggregator

The scheduler loop's per-completion statistics update
(semantic_search.py:223–232).  Latencies (Python floats from
`timer() - startTime`) are embedded as exact rationals.
-/

/-- One `process_line` success result, `(timer() - startTime, record["RECORD_ID"],
response)` (semantic_search.py:148), with the opaque engine response dropped. -/
structure Sample where
  lat : ℚ
  rid : String
  deriving DecidableEq

/-- The running statistics of the scheduler loop:
`count`, `timeTot`, `timeMin`, `timeMax`, `timesAll`
(semantic_search.py:198–199). -/
structure Stats where
  count : ℕ
  timeTot : ℚ
  timeMin : ℚ
  timeMax : ℚ
  timesAll : List Sample
  deriving DecidableEq

/-- `timeMin = timeMax = timeTot = count = 0; timesAll = []`
(semantic_search.py:198–199). -/
def initStats : Stats := ⟨0, 0, 0, 0, []⟩

/-- The per-result statistics update (semantic_search.py:223–232): increment
`count`, append to `timesAll`, add into `timeTot`, update `timeMin` through a
zero sentinel (`if timeMin == 0`), update `timeMax` with `max`. -/
def recordSample (st : Stats) (s : Sample) : Stats :=
  { count := st.count + 1
    timesAll := st.timesAll ++ [s]
    timeTot := st.timeTot + s.lat
    timeMin := if st.timeMin = 0 then s.lat else min st.timeMin s.lat
    timeMax := max st.timeMax s.lat }

/-! ## Bounded pipeline scheduler

The module-level loop of semantic_search.py:201–256.  A `ProcessingUnit`
(one `executor.submit(process_line, ...)` future) is abstracted as the
application of an `exec` function to its input line: `.ok sample` when
`process_line` returns, `.error e` when it raises (in the source, `process_line`
logs the error together with the offending line and re-raises,
semantic_search.py:149–152).
-/

/-- The outcome of one `process_line` call on one input line. -/
abbrev ExecFn := String → Except String Sample

/-- `q_multiple = 2` (semantic_search.py:203). -/
def q_multiple : ℕ := 2

/-- Scheduler state: `pending` are the input lines not yet read from the file,
`outstanding` the submitted-but-not-consumed futures (keyed by their line), and
`stats` the running statistics. -/
structure SchedState where
  pending : List String
  outstanding : List String
  stats : Stats
  deriving DecidableEq

/-- Initial submission (semantic_search.py:209–212): the first
`q_multiple * max_workers` lines of the input are submitted
(`itertools.islice(fp, q_multiple * executor._max_workers)`). -/
def initState (maxWorkers : ℕ) (input : List String) : SchedState :=
  { pending := input.drop (q_multiple * maxWorkers)
    outstanding := input.take (q_multiple * maxWorkers)
    stats := initStats }

/-- The exit computed after the loop: the final summary line
(semantic_search.py:255) divides `timeTot/count`; with a zero count this raises
`ZeroDivisionError`, which reaches the scheduler's `except` handler and
`exit(-1)` (semantic_search.py:284–288); otherwise the report completes and the
process exits `0`. -/
def schedExit (stats : Stats) : Int :=
  if stats.count = 0 then -1 else 0

/-- Deterministic scheduler run (one completion order: the oldest outstanding
future completes first).  Mirrors semantic_search.py:214–256: while futures
remain, consume one completed future; if `fut.result()` re-raises the unit's
exception, control transfers to the `except` handler which shuts down and
exits `-1` (semantic_search.py:284–288); on success the statistics are updated
(`recordSample`) and one further line is read and submitted
(semantic_search.py:250–252). -/
def runLoop (exec : ExecFn) : SchedState → Int × Stats
  | ⟨_pending, [], stats⟩ => (schedExit stats, stats)
  | ⟨pending, l :: rest, stats⟩ =>
    match exec l with
    | .error _ => (-1, stats)
    | .ok s =>
        runLoop exec ⟨pending.drop 1, rest ++ pending.take 1, recordSample stats s⟩
termination_by st => st.pending.length + st.outstanding.length
decreasing_by
  simp only [List.length_drop, List.length_append, List.length_take, List.length_cons]
  omega

/-- Full deterministic run of the scheduler on an input file. -/
def schedRun (exec : ExecFn) (maxWorkers : ℕ) (input : List String) : Int × Stats :=
  runLoop exec (initState maxWorkers input)

/-- Nondeterministic small-step semantics of the scheduler loop: completion
order is unconstrained, so any outstanding future may be the one consumed.
Consuming a successful future records its sample and refills the window with at
most one new line from the input (semantic_search.py:219–252).  A future whose
`fut.result()` re-raises has no successor step: the loop is abandoned. -/
inductive SchedStep (exec : ExecFn) : SchedState → SchedState → Prop where
  | consume (pending out₁ out₂ : List String) (l : String) (s : Sample) (stats : Stats) :
      exec l = .ok s →
      SchedStep exec
        ⟨pending, out₁ ++ l :: out₂, stats⟩
        ⟨pending.drop 1, (out₁ ++ out₂) ++ pending.take 1, recordSample stats s⟩

/-- A scheduler state reachable from the initial submission. -/
def SchedReachable (exec : ExecFn) (maxWorkers : ℕ) (input : List String)
    (st : SchedState) : Prop :=
  Relation.ReflTransGen (SchedStep exec) (initState maxWorkers input) st

/-! ## Final report

semantic_search.py:254–279: after the loop, `timesAll` is sorted by latency
descending (`timesAll.sort(key=lambda x: x[0], reverse=True)`, a stable sort),
the fraction of samples at or under one second, the worst sample, and the
`p99`/`p95`/`p90` lines are produced.
-/

/-- The descending comparison used by the stable sort on `timesAll`. -/
def slower (a b : Sample) : Prop := b.lat ≤ a.lat

instance : DecidableRel slower := fun a b => inferInstanceAs (Decidable (b.lat ≤ a.lat))

instance : IsTotal Sample slower := ⟨fun a b => le_total b.lat a.lat⟩

instance : IsTrans Sample slower := ⟨fun _ _ _ hab hbc => le_trans hbc hab⟩

/-- `timesAll.sort(key=lambda x: x[0], reverse=True)` (semantic_search.py:257):
a stable sort into non-increasing latency order. -/
def sortDesc (l : List Sample) : List Sample := l.insertionSort slower

/-- The scan of semantic_search.py:259–263: walk the descending-sorted list and
count the leading samples whose latency exceeds `1.0` (the loop breaks at the
first sample with `timesAll[i][0] <= 1.0`). -/
def scanOver1 : List Sample → ℕ
  | [] => 0
  | s :: rest => if s.lat ≤ 1 then 0 else scanOver1 rest + 1

/-- The percentile printing loop of semantic_search.py:267–279: with
`pXX = int(count * fraction)`, iterate `i = 1, ..., p90` and emit the `pXX`
line, holding `timesAll[i]`, at each `i` equal to that percentile's index. -/
def pIndexLines (sorted : List Sample) (p99 p95 p90 : ℕ) : List (String × Sample) :=
  (List.range' 1 p90).flatMap fun i =>
    (if i = p99 then [("p99", sorted.getD i ⟨0, ""⟩)] else []) ++
    (if i = p95 then [("p95", sorted.getD i ⟨0, ""⟩)] else []) ++
    (if i = p90 then [("p90", sorted.getD i ⟨0, ""⟩)] else [])

/-- The data printed by the final report. -/
structure FinalReport where
  percentUnder1 : ℚ
  longest : Sample
  plines : List (String × Sample)
  deriving DecidableEq

/-- The final report of semantic_search.py:254–279.  The summary line divides
by `count` (`ZeroDivisionError` when no sample was recorded,
semantic_search.py:255); `timesAll[0]` raises `IndexError` on an empty history
(unreachable once `count ≠ 0`, since `count` counts the appended samples).  The
percentile indices are `int(count*0.01)`, `int(count*0.05)`, `int(count*0.10)`,
i.e. truncated division. -/
def finalReport (stats : Stats) : Except String FinalReport :=
  if stats.count = 0 then .error "ZeroDivisionError"
  else
    match sortDesc stats.timesAll with
    | [] => .error "IndexError"
    | s0 :: tl =>
      let sorted := s0 :: tl
      let over1 := scanOver1 sorted
      .ok { percentUnder1 := ((stats.count : ℚ) - (over1 : ℚ)) / (stats.count : ℚ) * 100
            longest := s0
            plines := pIndexLines sorted (stats.count * 1 / 100)
                        (stats.count * 5 / 100) (stats.count * 10 / 100) }

/-- Just the labels of the percentile lines of a final report. -/
def plineLabels (r : Except String FinalReport) : Option (List String) :=
  r.toOption.map fun fr => fr.plines.map Prod.fst

/-! ## Concrete inputs used in counterexamples and witnesses -/

/-- The record `{"NAME_FIRST":"Jane","NAME_LAST":"Doe"}` from the spec's
Name-Extractor examples. -/
def janeDoe : JObj := .cons "NAME_FIRST" (.str "Jane") (.cons "NAME_LAST" (.str "Doe") .nil)

/-- The record `{"NAME_FULL":"Acme Corp"}`. -/
def acmeRec : JObj := .cons "NAME_FULL" (.str "Acme Corp") .nil

/-- A search record with an id and a full name. -/
def rec0 : JObj := .cons "RECORD_ID" (.str "r1") (.cons "NAME_FULL" (.str "Acme Corp") .nil)

/-- A lookup that returns one row for every encoded value. -/
def lk1 : Lookup := fun _ => [("DS1", "id1")]

/-- A lookup that returns three rows, as in the spec's forced-candidate
scenario. -/
def lk3 : Lookup := fun _ => [("DS1", "id1"), ("DS2", "id2"), ("DS1", "id3")]

/-- A per-line executor that fails on the line `"bad"` and succeeds, with
latency 1, on every other line. -/
def execCex : ExecFn := fun l => if l = "bad" then .error "boom" else .ok ⟨1, l⟩

/-- A per-line executor that always succeeds with latency 1. -/
def execOk : ExecFn := fun l => .ok ⟨1, l⟩

/-- Thirty latency samples, 30s down to 1s. -/
def samples30 : List Sample := (List.range 30).map fun n => ⟨((30 - n : ℕ) : ℚ), "r"⟩

/-! ## Shared lemmas about the name traversal -/

mutual

/-- The rows collected over one item equal the concatenated lookups of that
item's name candidates. -/
theorem rowsOfVal_eq_flatMap (L : Lookup) (k : String) :
    ∀ v : JVal, rowsOfVal L k v = (candsOfVal k v).flatMap fun p => L p.2
  | .obj o => by
      simp only [rowsOfVal, candsOfVal]
      exact rowsOfObj_eq_flatMap L o
  | .str s => by
      cases hq : qualifiesName k <;> cases ht : truthy (.str s) <;>
        simp [rowsOfVal, candsOfVal, process_name, hq, ht]
  | .num n => by
      cases hq : qualifiesName k <;> cases ht : truthy (.num n) <;>
        simp [rowsOfVal, candsOfVal, process_name, hq, ht]
  | .bool b => by
      cases hq : qualifiesName k <;> cases ht : truthy (.bool b) <;>
        simp [rowsOfVal, candsOfVal, process_name, hq, ht]
  | .null => by
      cases hq : qualifiesName k <;>
        simp [rowsOfVal, candsOfVal, process_name, hq, truthy]
  | .arr a => by
      cases hq : qualifiesName k <;> cases ht : truthy (.arr a) <;>
        simp [rowsOfVal, candsOfVal, process_name, hq, ht]

/-- `process_record_for_embed` collects exactly the concatenated lookup rows of
the record's name candidates, in traversal order. -/
theorem rowsOfObj_eq_flatMap (L : Lookup) :
    ∀ o : JObj, rowsOfObj L o = (candsOfObj o).flatMap fun p => L p.2
  | .nil => by simp [rowsOfObj, candsOfObj]
  | .cons k v rest => by
      simp only [rowsOfObj, candsOfObj, List.flatMap_append]
      rw [rowsOfVal_eq_flatMap L k v, rowsOfObj_eq_flatMap L rest]

end

mutual

/-- Every name candidate of one item has a qualifying key and a truthy value. -/
theorem candsOfVal_mem (k : String) :
    ∀ v : JVal, ∀ p ∈ candsOfVal k v, qualifiesName p.1 = true ∧ truthy p.2 = true
  | .obj o => by
      simp only [candsOfVal]
      exact candsOfObj_mem o
  | .str s => by
      intro p hp
      simp only [candsOfVal] at hp
      split at hp <;> rename_i h
      · simp only [List.mem_singleton] at hp
        subst hp
        simp only [Bool.and_eq_true] at h
        exact h
      · simp at hp
  | .num n => by
      intro p hp
      simp only [candsOfVal] at hp
      split at hp <;> rename_i h
      · simp only [List.mem_singleton] at hp
        subst hp
        simp only [Bool.and_eq_true] at h
        exact h
      · simp at hp
  | .bool b => by
      intro p hp
      simp only [candsOfVal] at hp
      split at hp <;> rename_i h
      · simp only [List.mem_singleton] at hp
        subst hp
        simp only [Bool.and_eq_true] at h
        exact h
      · simp at hp
  | .null => by
      intro p hp
      simp only [candsOfVal] at hp
      split at hp <;> rename_i h
      · simp only [List.mem_singleton] at hp
        subst hp
        simp only [Bool.and_eq_true] at h
        exact h
      · simp at hp
  | .arr a => by
      intro p hp
      simp only [candsOfVal] at hp
      split at hp <;> rename_i h
      · simp only [List.mem_singleton] at hp
        subst hp
        simp only [Bool.and_eq_true] at h
        exact h
      · simp at hp

/-- Every name candidate of a record has a qualifying key and a truthy value. -/
theorem candsOfObj_mem :
    ∀ o : JObj, ∀ p ∈ candsOfObj o, qualifiesName p.1 = true ∧ truthy p.2 = true
  | .nil => by simp [candsOfObj]
  | .cons k v rest => by
      intro p hp
      simp only [candsOfObj, List.mem_append] at hp
      rcases hp with hp | hp
      · exact candsOfVal_mem k v p hp
      · exact candsOfObj_mem rest p hp

end

/-- A key of `o.setKey k v` is a key of `o` or is `k`. -/
theorem keys_setKey_mem : ∀ (o : JObj) (k : String) (v : JVal) (x : String),
    x ∈ (o.setKey k v).keys → x ∈ o.keys ∨ x = k
  | .nil, k, v, x => by
      simp [JObj.setKey, JObj.keys]
  | .cons k' v' rest, k, v, x => by
      intro hx
      simp only [JObj.setKey] at hx
      split at hx <;> rename_i h
      · simp only [JObj.keys, List.mem_cons] at hx ⊢
        tauto
      · simp only [JObj.keys, List.mem_cons] at hx ⊢
        rcases hx with hx | hx
        · tauto
        · rcases keys_setKey_mem rest k v x hx with h2 | h2 <;> tauto

/-- Building a JSON array from a mapped list preserves its length. -/
theorem length_ofList_map (f : Row → JVal) :
    ∀ rows : List Row, (JArr.ofList (rows.map f)).length = rows.length
  | [] => rfl
  | r :: rest => by
      simp only [List.map_cons, JArr.ofList, JArr.length, length_ofList_map f rest,
        List.length_cons]

/-! ## Claim C3 — name extraction -/

/-- C3 counterexample: the name traversal of `process_record_for_embed` has no
CONSTRUCTED_NAME rule.  On `{"NAME_FIRST":"Jane","NAME_LAST":"Doe"}` it reaches
`model.encode` for no value at all (neither key ends in NAME_ORG/NAME_FULL and
neither value is a dict), so it does not yield the single
`("CONSTRUCTED_NAME","Jane Doe")` candidate the claim requires. -/
theorem C3_counterexample :
    candsOfObj janeDoe = [] ∧
    candsOfObj janeDoe ≠ [("CONSTRUCTED_NAME", JVal.str "Jane Doe")] := by
  decide

/-- C3 amended: the traversal emits a candidate exactly at keys ending in
NAME_ORG or NAME_FULL (case-insensitively) whose value is truthy, in
depth-first key order, and nothing else; there is no NAME_FIRST/NAME_MIDDLE/
NAME_LAST constructed-name rule, so `{"NAME_FIRST":"Jane","NAME_LAST":"Doe"}`
and `{}` yield no candidates, while `{"NAME_FULL":"Acme Corp"}` yields exactly
one candidate `("NAME_FULL","Acme Corp")`. -/
theorem C3_amended :
    (∀ (o : JObj), ∀ p ∈ candsOfObj o, qualifiesName p.1 = true ∧ truthy p.2 = true) ∧
    candsOfObj acmeRec = [("NAME_FULL", .str "Acme Corp")] ∧
    candsOfObj JObj.nil = [] ∧
    candsOfObj janeDoe = [] := by
  refine ⟨candsOfObj_mem, by decide, by decide, by decide⟩

/-- C3 amended, witness: the amended theorem applied to the concrete
`{"NAME_FULL":"Acme Corp"}` record and its single candidate. -/
theorem C3_amended_witness :
    qualifiesName "NAME_FULL" = true ∧ truthy (.str "Acme Corp") = true :=
  C3_amended.1 acmeRec ("NAME_FULL", .str "Acme Corp") (by decide)

/-! ## Claim C4 — no label/embedding fields are set -/

/-- C4 counterexample: a record with a name candidate.  `process_line` mutates
the record only by (possibly) attaching `_FORCED_CANDIDATES`; no key of the
outgoing record ends in `_LABEL` or `_EMBEDDING` in any casing, so no
`<FEATURE>_LABEL`/`<FEATURE>_EMBEDDING` fields are set before the resolution
call, contrary to the claim. -/
theorem C4_counterexample :
    candsOfObj rec0 = [("NAME_FULL", JVal.str "Acme Corp")] ∧
    JObj.keys (augmentRecord lk1 rec0) = ["RECORD_ID", "NAME_FULL", "_FORCED_CANDIDATES"] ∧
    ((JObj.keys (augmentRecord lk1 rec0)).all fun k =>
       !(pyEndsWith (pyUpper k) "_LABEL") && !(pyEndsWith (pyUpper k) "_EMBEDDING")) = true := by
  decide

/-- C4 amended: for every record and every lookup, the only field
`process_line` can add to a record before submitting it to the resolution call
is `_FORCED_CANDIDATES`; every key of the outgoing record is a key of the
incoming record or is `_FORCED_CANDIDATES`, so in particular no label or
embedding field is ever set. -/
theorem C4_amended (L : Lookup) (r : JObj) (k : String)
    (hk : k ∈ JObj.keys (augmentRecord L r)) :
    k ∈ JObj.keys r ∨ k = "_FORCED_CANDIDATES" := by
  rcases hrows : rowsOfObj L r with _ | ⟨a, rest⟩
  · left
    simpa [augmentRecord, hrows] using hk
  · have hk2 : k ∈ (r.setKey "_FORCED_CANDIDATES" (forcedBlock (a :: rest))).keys := by
      simpa [augmentRecord, hrows] using hk
    exact keys_setKey_mem r "_FORCED_CANDIDATES" _ k hk2

/-- C4 amended, witness: the amended theorem applied to the concrete record
`rec0` at its added key. -/
theorem C4_amended_witness :
    "_FORCED_CANDIDATES" ∈ JObj.keys rec0 ∨ "_FORCED_CANDIDATES" = "_FORCED_CANDIDATES" :=
  C4_amended lk1 rec0 "_FORCED_CANDIDATES" (by decide)

/-! ## Claim C5 — the forced-candidate block -/

/-- C5: for every record and every lookup, `process_line` performs the
similarity lookup once per truthy NAME_ORG/NAME_FULL value found anywhere in
the record's nested mappings (first conjunct: the collected rows are exactly
the concatenated per-name lookup results, in traversal order); if the lookups
return no row the record is unchanged, and otherwise the outgoing record
carries `_FORCED_CANDIDATES = {"RECORDS": [...]}` with one
`{DATA_SOURCE, RECORD_ID}` entry per returned row, in returned order (third
conjunct: the entry count equals the row count). -/
theorem C5_forced_candidates (L : Lookup) (r : JObj) :
    rowsOfObj L r = (candsOfObj r).flatMap (fun p => L p.2) ∧
    augmentRecord L r =
      (if rowsOfObj L r = [] then r
       else r.setKey "_FORCED_CANDIDATES"
         (.obj (.cons "RECORDS" (.arr (.ofList ((rowsOfObj L r).map mkForcedEntry))) .nil))) ∧
    (JArr.ofList ((rowsOfObj L r).map mkForcedEntry)).length = (rowsOfObj L r).length := by
  refine ⟨rowsOfObj_eq_flatMap L r, ?_, length_ofList_map mkForcedEntry _⟩
  unfold augmentRecord forcedBlock
  rcases h : rowsOfObj L r with _ | ⟨row, rows⟩ <;> simp [h]

/-! ## Claim C8 — empty name values -/

/-- C8: a record whose only name field is the empty string produces no
embedding call (no candidate reaches `model.encode`, in both
`semantic_search.py` and `semantic_load.py`), no lookup rows and no
forced-candidate block — the record passes through unchanged; and in general a
record with no encodable name candidate is left untouched (an empty lookup
result is not an error). -/
theorem C8_empty_name (L : Lookup) (k : String) :
    process_name L (.str "") = [] ∧
    candsOfObj (JObj.cons k (.str "") .nil) = [] ∧
    rowsOfObj L (JObj.cons k (.str "") .nil) = [] ∧
    loadEncodesObj (JObj.cons k (.str "") .nil) = [] ∧
    augmentRecord L (JObj.cons k (.str "") .nil) = JObj.cons k (.str "") .nil ∧
    (∀ r : JObj, candsOfObj r = [] → rowsOfObj L r = [] ∧ augmentRecord L r = r) := by
  have hpn : process_name L (.str "") = [] := by simp [process_name, truthy]
  have hgen : ∀ r : JObj, candsOfObj r = [] → rowsOfObj L r = [] ∧ augmentRecord L r = r := by
    intro r hr
    have h1 : rowsOfObj L r = [] := by rw [rowsOfObj_eq_flatMap L r, hr]; rfl
    exact ⟨h1, by simp [augmentRecord, h1]⟩
  have hc : candsOfObj (JObj.cons k (.str "") .nil) = [] := by
    simp only [candsOfObj, candsOfVal, truthy]
    cases hq : qualifiesName k <;> simp
  refine ⟨hpn, hc, ?_, ?_, ?_, hgen⟩
  · exact (hgen _ hc).1
  · simp only [loadEncodesObj, loadEncodesVal, truthy]
    cases hq : qualifiesName k <;> simp
  · exact (hgen _ hc).2

/-- C8 witness: the theorem's general conjunct applied to the concrete record
`{"NAME_FULL": ""}` with a nonempty lookup. -/
theorem C8_empty_name_witness :
    rowsOfObj lk1 (JObj.cons "NAME_FULL" (.str "") .nil) = [] ∧
    augmentRecord lk1 (JObj.cons "NAME_FULL" (.str "") .nil) =
      JObj.cons "NAME_FULL" (.str "") .nil :=
  (C8_empty_name lk1 "NAME_FULL").2.2.2.2.2 (JObj.cons "NAME_FULL" (.str "") .nil) (by decide)

/-! ## Claim C7 — running minimum -/

/-- C7 counterexample: the statistics update compares against a zero sentinel
(`if timeMin == 0`, semantic_search.py:228), it does not initialize the
minimum from the first sample.  After the samples with latencies `[0, 5]` the
reported minimum is `5`, not the true minimum `0`: a zero latency re-arms the
sentinel and the minimum is re-initialized from the next sample. -/
theorem C7_counterexample :
    (List.foldl recordSample initStats [⟨0, "a"⟩, ⟨5, "b"⟩]).timeMin = 5 ∧
    (List.foldl recordSample initStats [⟨0, "a"⟩, ⟨5, "b"⟩]).timesAll.map Sample.lat = [0, 5] ∧
    ¬ (List.foldl recordSample initStats [⟨0, "a"⟩, ⟨5, "b"⟩]).timeMin ≤ 0 := by
  decide

/-- While the running minimum is nonzero and every remaining latency is
nonzero, the sentinel branch is never taken again and the update is a plain
fold of `min`. -/
theorem timeMin_foldl : ∀ (l : List Sample) (st : Stats), st.timeMin ≠ 0 →
    (∀ s ∈ l, s.lat ≠ 0) →
    (List.foldl recordSample st l).timeMin =
      List.foldl (fun m s => min m s.lat) st.timeMin l := by
  intro l
  induction l with
  | nil => intro st h hl; rfl
  | cons a rest ih =>
    intro st h hl
    have hstep : (recordSample st a).timeMin = min st.timeMin a.lat := by
      simp [recordSample, if_neg h]
    have hne2 : (recordSample st a).timeMin ≠ 0 := by
      rw [hstep]
      rcases min_choice st.timeMin a.lat with hc | hc <;> rw [hc]
      · exact h
      · exact hl a (List.mem_cons_self a rest)
    have hl2 : ∀ s ∈ rest, s.lat ≠ 0 := fun s hs => hl s (List.mem_cons_of_mem a hs)
    simp only [List.foldl_cons]
    rw [ih (recordSample st a) hne2 hl2, hstep]

/-- A fold of `min` over latencies is attained by the seed or by some sample
and bounds the seed and every sample from below. -/
theorem foldl_min_spec : ∀ (l : List Sample) (m : ℚ),
    (List.foldl (fun m s => min m s.lat) m l = m ∨
      ∃ s ∈ l, List.foldl (fun m s => min m s.lat) m l = s.lat) ∧
    List.foldl (fun m s => min m s.lat) m l ≤ m ∧
    ∀ s ∈ l, List.foldl (fun m s => min m s.lat) m l ≤ s.lat := by
  intro l
  induction l with
  | nil => intro m; exact ⟨Or.inl rfl, le_refl m, by simp⟩
  | cons a rest ih =>
    intro m
    obtain ⟨hat, hle, hall⟩ := ih (min m a.lat)
    simp only [List.foldl_cons]
    refine ⟨?_, le_trans hle (min_le_left _ _), ?_⟩
    · rcases hat with hat | ⟨s, hs, hval⟩
      · rcases min_choice m a.lat with hc | hc
        · exact Or.inl (hat.trans hc)
        · exact Or.inr ⟨a, List.mem_cons_self a rest, hat.trans hc⟩
      · exact Or.inr ⟨s, List.mem_cons_of_mem a hs, hval⟩
    · intro s hs
      rcases List.mem_cons.1 hs with hs | hs
      · subst hs
        exact le_trans hle (min_le_right _ _)
      · exact hall s hs

/-- C7 amended: the running minimum is maintained through a zero sentinel, so
it equals the true minimum of the recorded latencies only on sample sequences
whose latencies are all nonzero (the first sample then seeds the minimum and
the sentinel never re-arms); a latency of exactly zero breaks the invariant
(see the counterexample). -/
theorem C7_amended (samples : List Sample) (hne : samples ≠ [])
    (hnz : ∀ s ∈ samples, s.lat ≠ 0) :
    (∃ s ∈ samples, (List.foldl recordSample initStats samples).timeMin = s.lat) ∧
    ∀ s ∈ samples, (List.foldl recordSample initStats samples).timeMin ≤ s.lat := by
  rcases samples with _ | ⟨a, rest⟩
  · exact absurd rfl hne
  have ha : a.lat ≠ 0 := hnz a (List.mem_cons_self a rest)
  have hst1 : (recordSample initStats a).timeMin = a.lat := by
    simp [recordSample, initStats]
  have hmin : (List.foldl recordSample initStats (a :: rest)).timeMin =
      List.foldl (fun m s => min m s.lat) a.lat rest := by
    simp only [List.foldl_cons]
    rw [timeMin_foldl rest (recordSample initStats a)
      (by rw [hst1]; exact ha) (fun s hs => hnz s (List.mem_cons_of_mem a hs)), hst1]
  obtain ⟨hat, hle, hall⟩ := foldl_min_spec rest a.lat
  rw [hmin]
  constructor
  · rcases hat with hat | ⟨s, hs, hval⟩
    · exact ⟨a, List.mem_cons_self a rest, hat⟩
    · exact ⟨s, List.mem_cons_of_mem a hs, hval⟩
  · intro s hs
    rcases List.mem_cons.1 hs with hs | hs
    · subst hs; exact hle
    · exact hall s hs

/-- C7 amended, witness: the amended theorem applied to two positive-latency
samples. -/
theorem C7_amended_witness :
    (∃ s ∈ [(⟨2, "a"⟩ : Sample), ⟨1, "b"⟩],
       (List.foldl recordSample initStats [(⟨2, "a"⟩ : Sample), ⟨1, "b"⟩]).timeMin = s.lat) ∧
    ∀ s ∈ [(⟨2, "a"⟩ : Sample), ⟨1, "b"⟩],
       (List.foldl recordSample initStats [(⟨2, "a"⟩ : Sample), ⟨1, "b"⟩]).timeMin ≤ s.lat :=
  C7_amended [⟨2, "a"⟩, ⟨1, "b"⟩] (by decide) (by decide)

/-! ## Shared lemmas about the scheduler -/

/-- A fold of `max` over rationals is attained by the seed or by some element
and bounds the seed and every element from above. -/
theorem foldl_max_spec : ∀ (l : List ℚ) (m : ℚ),
    (List.foldl max m l = m ∨ List.foldl max m l ∈ l) ∧
    m ≤ List.foldl max m l ∧ ∀ x ∈ l, x ≤ List.foldl max m l := by
  intro l
  induction l with
  | nil => intro m; exact ⟨Or.inl rfl, le_refl m, by simp⟩
  | cons a rest ih =>
    intro m
    obtain ⟨hat, hle, hall⟩ := ih (max m a)
    simp only [List.foldl_cons]
    refine ⟨?_, le_trans (le_max_left _ _) hle, ?_⟩
    · rcases hat with hat | hat
      · rcases max_choice m a with hc | hc
        · exact Or.inl (hat.trans hc)
        · refine Or.inr ?_
          rw [hat, hc]
          exact List.mem_cons_self a rest
      · exact Or.inr (List.mem_cons_of_mem a hat)
    · intro x hx
      rcases List.mem_cons.1 hx with hx | hx
      · subst hx
        exact le_trans (le_max_right _ _) hle
      · exact hall x hx

/-- The master invariant of every reachable scheduler state: the outstanding
window never exceeds `q_multiple * maxWorkers`; `count` equals the length of
the recorded history, `timeTot` its sum, `timeMax` the max-fold of its
latencies; and every recorded sample was produced by a successful unit. -/
theorem sched_reach_invariant (exec : ExecFn) (W : ℕ) (input : List String) (st : SchedState)
    (h : SchedReachable exec W input st) :
    st.outstanding.length ≤ q_multiple * W ∧
    st.stats.count = st.stats.timesAll.length ∧
    st.stats.timeTot = (st.stats.timesAll.map Sample.lat).sum ∧
    st.stats.timeMax = (st.stats.timesAll.map Sample.lat).foldl max 0 ∧
    (∀ s ∈ st.stats.timesAll, ∃ l, exec l = .ok s) := by
  induction h with
  | refl =>
    refine ⟨?_, by simp [initState, initStats], by simp [initState, initStats],
      by simp [initState, initStats], by simp [initState, initStats]⟩
    simp only [initState, List.length_take]
    exact min_le_left _ _
  | tail hreach hstep ih =>
    cases hstep with
    | consume pending out₁ out₂ l s stats hok =>
      obtain ⟨hbound, hcount, htot, hmax, hmem⟩ := ih
      dsimp only at hcount htot hmax hmem
      simp only [List.length_append, List.length_cons] at hbound
      refine ⟨?_, ?_, ?_, ?_, ?_⟩
      · simp only [List.length_append, List.length_take]
        omega
      · simp only [recordSample, List.length_append, List.length_cons, List.length_nil]
        omega
      · simp only [recordSample, List.map_append, List.sum_append, List.map_cons,
          List.map_nil, List.sum_cons, List.sum_nil, add_zero]
        rw [htot]
      · simp only [recordSample, List.map_append, List.foldl_append, List.map_cons,
          List.map_nil, List.foldl_cons, List.foldl_nil]
        rw [hmax]
      · intro s2 hs2
        simp only [recordSample, List.mem_append, List.mem_singleton] at hs2
        rcases hs2 with hs2 | hs2
        · exact hmem s2 hs2
        · exact ⟨l, hs2 ▸ hok⟩

/-! ## Claim C2 — window bound -/

/-- C2 counterexample: with a configured thread count of `W = 1` and two input
lines, the initial submission already holds `q_multiple * W = 2` outstanding
units (`itertools.islice(fp, q_multiple * executor._max_workers)`,
semantic_search.py:209–212), exceeding the claimed bound `W`. -/
theorem C2_counterexample :
    (initState 1 ["a", "b"]).outstanding.length = 2 ∧
    ¬ (initState 1 ["a", "b"]).outstanding.length ≤ 1 := by
  decide

/-- C2 amended: at every reachable instant the number of outstanding
(submitted but not yet consumed) units is at most `q_multiple * W = 2·W`, where
`W` is the configured thread count: the scheduler initially submits at most
`2·W` lines and refills by at most one line per consumed unit. -/
theorem C2_amended (exec : ExecFn) (W : ℕ) (input : List String) (st : SchedState)
    (h : SchedReachable exec W input st) :
    st.outstanding.length ≤ q_multiple * W :=
  (sched_reach_invariant exec W input st h).1

/-- C2 amended, witness: the bound applied at the (reachable) initial state for
`W = 1` and two input lines. -/
theorem C2_amended_witness :
    (initState 1 ["a", "b"]).outstanding.length ≤ q_multiple * 1 :=
  C2_amended execOk 1 ["a", "b"] (initState 1 ["a", "b"]) Relation.ReflTransGen.refl

/-! ## Claim C10 — aggregator consistency -/

/-- C10: in every reachable scheduler state, `count` equals the length of the
recorded history and `timeTot` equals the sum of the recorded latencies; every
step that consumes a successful unit appends exactly one sample (never zero,
never two); and, provided every successful unit reports a nonnegative latency,
the running `timeMax` of a nonempty history is attained by a recorded latency
and bounds all of them. -/
theorem C10_aggregator (exec : ExecFn) (W : ℕ) (input : List String) (st : SchedState)
    (h : SchedReachable exec W input st) :
    (st.stats.count = st.stats.timesAll.length ∧
     st.stats.timeTot = (st.stats.timesAll.map Sample.lat).sum) ∧
    (∀ st', SchedStep exec st st' →
       st'.stats.timesAll.length = st.stats.timesAll.length + 1 ∧
       st'.stats.count = st.stats.count + 1) ∧
    ((∀ l s, exec l = .ok s → 0 ≤ s.lat) → st.stats.timesAll ≠ [] →
       st.stats.timeMax ∈ st.stats.timesAll.map Sample.lat ∧
       ∀ x ∈ st.stats.timesAll.map Sample.lat, x ≤ st.stats.timeMax) := by
  obtain ⟨hbound, hcount, htot, hmax, hmem⟩ := sched_reach_invariant exec W input st h
  refine ⟨⟨hcount, htot⟩, ?_, ?_⟩
  · intro st2 hstep
    cases hstep with
    | consume pending out₁ out₂ l s stats hok =>
      simp [recordSample]
  · intro hnn hne
    have hnonneg : ∀ x ∈ st.stats.timesAll.map Sample.lat, 0 ≤ x := by
      intro x hx
      obtain ⟨s, hs, hval⟩ := List.mem_map.1 hx
      obtain ⟨l, hl⟩ := hmem s hs
      exact hval ▸ hnn l s hl
    obtain ⟨hat, hle0, hall⟩ := foldl_max_spec (st.stats.timesAll.map Sample.lat) 0
    rw [hmax]
    refine ⟨?_, hall⟩
    rcases hat with hat | hat
    · rcases hl : st.stats.timesAll with _ | ⟨s0, rest⟩
      · exact absurd hl hne
      · rw [hl] at hat hall hnonneg
        have hmem0 : s0.lat ∈ List.map Sample.lat (s0 :: rest) := by simp
        have h0 : s0.lat ≤ 0 := hat ▸ hall s0.lat hmem0
        have h1 : 0 ≤ s0.lat := hnonneg s0.lat hmem0
        rw [hat, ← le_antisymm h0 h1]
        exact hmem0
    · exact hat

/-- C10 witness: the theorem applied to the state reached after consuming one
successful unit on a one-line input. -/
theorem C10_witness :
    ((⟨[], [], recordSample initStats ⟨1, "a"⟩⟩ : SchedState).stats.count =
      (⟨[], [], recordSample initStats ⟨1, "a"⟩⟩ : SchedState).stats.timesAll.length) ∧
    (⟨[], [], recordSample initStats ⟨1, "a"⟩⟩ : SchedState).stats.timeMax ∈
      (⟨[], [], recordSample initStats ⟨1, "a"⟩⟩ : SchedState).stats.timesAll.map Sample.lat := by
  have hstep : SchedStep execOk (initState 1 ["a"]) ⟨[], [], recordSample initStats ⟨1, "a"⟩⟩ :=
    SchedStep.consume [] [] [] "a" ⟨1, "a"⟩ initStats rfl
  have h := C10_aggregator execOk 1 ["a"] ⟨[], [], recordSample initStats ⟨1, "a"⟩⟩
    (Relation.ReflTransGen.single hstep)
  refine ⟨h.1.1, ?_⟩
  exact (h.2.2 (fun l s hs => by cases hs; norm_num) (by decide)).1

/-- If any line of the remaining work fails, the deterministic scheduler run
ends in the error exit (the exception from `fut.result()` reaches the `except`
handler), provided an emptied window implies exhausted input (true for every
run started by `initState` with a nonzero window). -/
theorem runLoop_fail (exec : ExecFn) : ∀ st : SchedState,
    (st.outstanding = [] → st.pending = []) →
    (∃ l ∈ st.outstanding ++ st.pending, ∃ e, exec l = .error e) →
    (runLoop exec st).1 = -1
  | ⟨pending, [], stats⟩, hinv, hfail => by
      have hp : pending = [] := hinv rfl
      subst hp
      simp at hfail
  | ⟨pending, l :: rest, stats⟩, hinv, hfail => by
      cases hl : exec l with
      | error e => simp [runLoop, hl]
      | ok s =>
          simp only [runLoop, hl]
          apply runLoop_fail exec ⟨pending.drop 1, rest ++ pending.take 1, recordSample stats s⟩
          · intro hout
            dsimp only at hout
            rcases List.append_eq_nil.1 hout with ⟨hrest, htake⟩
            rcases (List.take_eq_nil_iff).1 htake with h1 | h1
            · omega
            · simp [h1]
          · obtain ⟨l2, hl2, e, he⟩ := hfail
            have hmem : l2 ∈ rest ++ pending := by
              rcases List.mem_append.1 hl2 with hm | hm
              · rcases List.mem_cons.1 hm with hm | hm
                · subst hm
                  rw [hl] at he
                  exact absurd he (by simp)
                · exact List.mem_append.2 (Or.inl hm)
              · exact List.mem_append.2 (Or.inr hm)
            refine ⟨l2, ?_, e, he⟩
            dsimp only
            rw [List.append_assoc, List.take_append_drop]
            exact hmem
  termination_by st => st.pending.length + st.outstanding.length
  decreasing_by
    simp only [List.length_drop, List.length_append, List.length_take, List.length_cons]
    omega

/-- If every line of the remaining work succeeds, the deterministic run drains
everything, ends through the final report, and its final count is the starting
count plus the number of remaining lines. -/
theorem runLoop_ok (exec : ExecFn) : ∀ st : SchedState,
    (st.outstanding = [] → st.pending = []) →
    (∀ l ∈ st.outstanding ++ st.pending, ∃ s, exec l = .ok s) →
    ∃ stf : Stats, runLoop exec st = (schedExit stf, stf) ∧
      stf.count = st.stats.count + (st.outstanding ++ st.pending).length
  | ⟨pending, [], stats⟩, hinv, _ => by
      have hp : pending = [] := hinv rfl
      subst hp
      exact ⟨stats, by simp [runLoop], by simp⟩
  | ⟨pending, l :: rest, stats⟩, hinv, hall => by
      obtain ⟨s, hs⟩ := hall l (by simp)
      have hrearr : (rest ++ pending.take 1) ++ pending.drop 1 = rest ++ pending := by
        rw [List.append_assoc, List.take_append_drop]
      have hinv2 : rest ++ pending.take 1 = [] → pending.drop 1 = [] := by
        intro hout
        rcases List.append_eq_nil.1 hout with ⟨hrest, htake⟩
        rcases (List.take_eq_nil_iff).1 htake with h1 | h1
        · omega
        · simp [h1]
      have hall2 : ∀ l2 ∈ (rest ++ pending.take 1) ++ pending.drop 1, ∃ s2, exec l2 = .ok s2 := by
        intro l2 hl2
        rw [hrearr] at hl2
        exact hall l2 (by simp at hl2 ⊢; tauto)
      obtain ⟨stf, heq, hcount⟩ :=
        runLoop_ok exec ⟨pending.drop 1, rest ++ pending.take 1, recordSample stats s⟩ hinv2 hall2
      refine ⟨stf, ?_, ?_⟩
      · simp only [runLoop, hs]
        exact heq
      · dsimp only at hcount ⊢
        rw [hcount]
        simp only [recordSample, List.length_append, List.length_take, List.length_drop,
          List.length_cons]
        omega
  termination_by st => st.pending.length + st.outstanding.length
  decreasing_by
    simp only [List.length_drop, List.length_append, List.length_take, List.length_cons]
    omega

/-! ## Claim C1 — per-record failure handling -/

/-- C1 counterexample: with one thread and the four lines
`["g1", "bad", "g2", "g3"]`, where only `"bad"` fails, the run terminates with
the error exit `-1` after recording a single sample.  The failing unit is not
treated as completed-for-refill and the remaining lines are never processed:
`process_line` re-raises after logging (semantic_search.py:152), the
scheduler's `fut.result()` (semantic_search.py:220) re-raises into the
`except` handler, and the handler shuts the executor down and calls `exit(-1)`
(semantic_search.py:284–288). -/
theorem C1_counterexample :
    (schedRun execCex 1 ["g1", "bad", "g2", "g3"]).1 = -1 ∧
    (schedRun execCex 1 ["g1", "bad", "g2", "g3"]).2.count = 1 := by
  constructor <;>
    simp [schedRun, initState, runLoop, execCex, q_multiple, recordSample, initStats]

/-- C1 amended: a failing unit's exception is logged with its input line at
the `process_line` boundary and then re-raised; when the scheduler consumes
that unit, `fut.result()` re-raises in the scheduler loop, which abandons all
outstanding and remaining lines and exits with status `-1` — the first
per-record failure terminates the run (it is not skipped). -/
theorem C1_amended (exec : ExecFn) (W : ℕ) (input : List String)
    (h : ∃ l ∈ input, ∃ e, exec l = .error e) :
    (schedRun exec W input).1 = -1 := by
  by_cases hW : q_multiple * W = 0
  · simp [schedRun, initState, hW, runLoop, schedExit, initStats]
  · apply runLoop_fail exec (initState W input)
    · intro hout
      simp only [initState] at hout ⊢
      rcases (List.take_eq_nil_iff).1 hout with h1 | h1
      · omega
      · simp [h1]
    · obtain ⟨l, hl, e, he⟩ := h
      refine ⟨l, ?_, e, he⟩
      simp only [initState]
      rw [List.take_append_drop]
      exact hl

/-- C1 amended, witness: the amended theorem applied to a one-line input whose
only line fails. -/
theorem C1_amended_witness : (schedRun execCex 1 ["bad"]).1 = -1 :=
  C1_amended execCex 1 ["bad"] ⟨"bad", by decide, "boom", rfl⟩

/-! ## Claim C9 — exit codes -/

/-- C9: with an empty input the final summary line divides by a zero `count`
and the raised error terminates the process through the `except` handler with
exit status `-1`; a run over a nonempty input in which every unit succeeds
(with at least one configured thread) completes normally, records one sample
per line, and exits `0`. -/
theorem C9_exit_codes (exec : ExecFn) (W : ℕ) (input : List String) :
    (input = [] → (schedRun exec W input).1 = -1) ∧
    (1 ≤ W → input ≠ [] → (∀ l ∈ input, ∃ s, exec l = .ok s) →
      (schedRun exec W input).1 = 0 ∧ (schedRun exec W input).2.count = input.length) := by
  constructor
  · intro hempty
    subst hempty
    simp [schedRun, initState, runLoop, schedExit, initStats]
  · intro hW hne hall
    have hinv : (initState W input).outstanding = [] → (initState W input).pending = [] := by
      intro hout
      simp only [initState] at hout ⊢
      rcases (List.take_eq_nil_iff).1 hout with h1 | h1
      · simp [q_multiple] at h1
        omega
      · simp [h1]
    have hall2 : ∀ l ∈ (initState W input).outstanding ++ (initState W input).pending,
        ∃ s, exec l = .ok s := by
      intro l hl
      simp only [initState] at hl
      rw [List.take_append_drop] at hl
      exact hall l hl
    obtain ⟨stf, heq, hcount⟩ := runLoop_ok exec (initState W input) hinv hall2
    have hcount2 : stf.count = input.length := by
      rw [hcount]
      simp only [initState, initStats]
      rw [List.take_append_drop]
      omega
    have hpos : stf.count ≠ 0 := by
      rw [hcount2]
      simpa using hne
    constructor
    · show (runLoop exec (initState W input)).1 = 0
      rw [heq]
      simp [schedExit, hpos]
    · show (runLoop exec (initState W input)).2.count = input.length
      rw [heq]
      exact hcount2

/-- C9 witness: the theorem applied to a three-line all-success run with one
thread. -/
theorem C9_witness :
    (schedRun execOk 1 ["x", "y", "z"]).1 = 0 ∧
    (schedRun execOk 1 ["x", "y", "z"]).2.count = 3 := by
  have h := (C9_exit_codes execOk 1 ["x", "y", "z"]).2 (by norm_num) (by decide)
    (fun l _ => ⟨⟨1, l⟩, rfl⟩)
  exact ⟨h.1, h.2⟩

/-! ## Shared lemmas about the final report -/

/-- Folding the statistics update over a sample list appends exactly those
samples to the history and adds their number to the count. -/
theorem foldl_recordSample_stats : ∀ (l : List Sample) (st : Stats),
    (List.foldl recordSample st l).timesAll = st.timesAll ++ l ∧
    (List.foldl recordSample st l).count = st.count + l.length := by
  intro l
  induction l with
  | nil => intro st; simp
  | cons a rest ih =>
    intro st
    obtain ⟨h1, h2⟩ := ih (recordSample st a)
    constructor
    · rw [List.foldl_cons, h1]
      simp [recordSample]
    · rw [List.foldl_cons, h2]
      simp only [recordSample, List.length_cons]
      omega

/-- The descending sort is a permutation of the history. -/
theorem sortDesc_perm (l : List Sample) : (sortDesc l).Perm l :=
  List.perm_insertionSort slower l

/-- The descending sort is sorted by non-increasing latency. -/
theorem sortDesc_sorted (l : List Sample) : List.Sorted slower (sortDesc l) :=
  List.sorted_insertionSort slower l

/-- On a descending-sorted list, the break-at-first-fast scan counts exactly
the samples whose latency exceeds one second. -/
theorem scanOver1_eq_countP : ∀ (l : List Sample), List.Sorted slower l →
    scanOver1 l = l.countP fun s => !decide (s.lat ≤ 1) := by
  intro l
  induction l with
  | nil => intro h; rfl
  | cons s rest ih =>
    intro hsort
    obtain ⟨hhead, htail⟩ := List.sorted_cons.1 hsort
    by_cases h : s.lat ≤ 1
    · have hzero : rest.countP (fun s => !decide (s.lat ≤ 1)) = 0 := by
        rw [List.countP_eq_zero]
        intro a ha
        simp only [Bool.not_eq_true', decide_eq_false_iff_not, not_not]
        exact le_trans (hhead a ha) h
      simp [scanOver1, h, List.countP_cons, hzero]
    · simp [scanOver1, h, List.countP_cons, ih htail]

/-- The `p99` line is emitted, holding the sorted sample at the `p99` index,
whenever `1 ≤ p99 ≤ p90`. -/
theorem pline_mem99 (sorted : List Sample) (p99 p95 p90 : ℕ)
    (h1 : 1 ≤ p99) (h2 : p99 ≤ p90) :
    ("p99", sorted.getD p99 ⟨0, ""⟩) ∈ pIndexLines sorted p99 p95 p90 := by
  refine List.mem_flatMap.2 ⟨p99, ?_, ?_⟩
  · simp only [List.mem_range'_1]
    omega
  · refine List.mem_append.2 (Or.inl (List.mem_append.2 (Or.inl ?_)))
    simp

/-- The `p95` line is emitted, holding the sorted sample at the `p95` index,
whenever `1 ≤ p95 ≤ p90`. -/
theorem pline_mem95 (sorted : List Sample) (p99 p95 p90 : ℕ)
    (h1 : 1 ≤ p95) (h2 : p95 ≤ p90) :
    ("p95", sorted.getD p95 ⟨0, ""⟩) ∈ pIndexLines sorted p99 p95 p90 := by
  refine List.mem_flatMap.2 ⟨p95, ?_, ?_⟩
  · simp only [List.mem_range'_1]
    omega
  · refine List.mem_append.2 (Or.inl (List.mem_append.2 (Or.inr ?_)))
    simp

/-- The `p90` line is emitted, holding the sorted sample at the `p90` index,
whenever `1 ≤ p90`. -/
theorem pline_mem90 (sorted : List Sample) (p99 p95 p90 : ℕ) (h1 : 1 ≤ p90) :
    ("p90", sorted.getD p90 ⟨0, ""⟩) ∈ pIndexLines sorted p99 p95 p90 := by
  refine List.mem_flatMap.2 ⟨p90, ?_, ?_⟩
  · simp only [List.mem_range'_1]
    omega
  · refine List.mem_append.2 (Or.inr ?_)
    simp

/-- Every emitted percentile line carries one of the three labels, and its
percentile index is at least one (the printing loop starts at `i = 1`, so an
index-zero percentile is never emitted). -/
theorem pline_mem_inv (sorted : List Sample) (p99 p95 p90 : ℕ) (pr : String × Sample)
    (h : pr ∈ pIndexLines sorted p99 p95 p90) :
    (pr.1 = "p99" ∧ 1 ≤ p99) ∨ (pr.1 = "p95" ∧ 1 ≤ p95) ∨ (pr.1 = "p90" ∧ 1 ≤ p90) := by
  obtain ⟨i, hi, hmem⟩ := List.mem_flatMap.1 h
  simp only [List.mem_range'_1] at hi
  rcases List.mem_append.1 hmem with hm | hm
  · rcases List.mem_append.1 hm with hm2 | hm2
    · split at hm2 <;> rename_i heq
      · simp only [List.mem_singleton] at hm2
        subst hm2
        exact Or.inl ⟨rfl, by omega⟩
      · simp at hm2
    · split at hm2 <;> rename_i heq
      · simp only [List.mem_singleton] at hm2
        subst hm2
        exact Or.inr (Or.inl ⟨rfl, by omega⟩)
      · simp at hm2
  · split at hm <;> rename_i heq
    · simp only [List.mem_singleton] at hm
      subst hm
      exact Or.inr (Or.inr ⟨rfl, by omega⟩)
    · simp at hm

/-- A predicate's count and its negation's count partition a list's length. -/
theorem countP_not_add (p : Sample → Bool) :
    ∀ l : List Sample, l.countP (fun s => !(p s)) + l.countP p = l.length := by
  intro l
  induction l with
  | nil => rfl
  | cons a rest ih =>
    simp only [List.countP_cons, List.length_cons]
    cases h : p a <;> simp [h] <;> omega

/-! ## Claim C6 — the final percentile report -/

/-- C6 counterexample: a 30-sample run.  The claimed p99 index is
`int(30*0.01) = 0`, but the code's percentile loop runs `i = 1, ..., p90` and
so never emits a `p99` line at all for this count: the report's percentile
labels are exactly `["p95", "p90"]`, with no `p99` entry — the claim's
unconditional "reports p99, p95 and p90" fails for index zero. -/
theorem C6_counterexample :
    samples30.length = 30 ∧
    plineLabels (finalReport (List.foldl recordSample initStats samples30)) =
      some ["p95", "p90"] ∧
    ¬ "p99" ∈ ["p95", "p90"] := by
  refine ⟨by decide, by decide, by decide⟩

/-- C6 amended: the final report sorts the history descending and, for each of
p99/p95/p90, reports the sample at index `floor(count·fraction)` counted from
the slow end (truncating integer arithmetic, nearest rank, no interpolation) —
but only when that index is at least 1; a percentile whose truncated index is 0
(p99 for count < 100, p95 for count < 20, p90 for count < 10) is omitted from
the report.  The fraction of samples at or under one second and the single
worst latency with its record id are reported for every nonempty history. -/
theorem C6_amended (samples : List Sample) (hne : samples ≠ []) :
    ∃ fr, finalReport (List.foldl recordSample initStats samples) = .ok fr ∧
      fr.percentUnder1 =
        ((samples.countP fun s => decide (s.lat ≤ 1)) : ℚ) / (samples.length : ℚ) * 100 ∧
      fr.longest ∈ samples ∧
      (∀ s ∈ samples, s.lat ≤ fr.longest.lat) ∧
      (1 ≤ samples.length * 1 / 100 →
        ("p99", (sortDesc samples).getD (samples.length * 1 / 100) ⟨0, ""⟩) ∈ fr.plines) ∧
      (samples.length * 1 / 100 = 0 → "p99" ∉ fr.plines.map Prod.fst) ∧
      (1 ≤ samples.length * 5 / 100 →
        ("p95", (sortDesc samples).getD (samples.length * 5 / 100) ⟨0, ""⟩) ∈ fr.plines) ∧
      (samples.length * 5 / 100 = 0 → "p95" ∉ fr.plines.map Prod.fst) ∧
      (1 ≤ samples.length * 10 / 100 →
        ("p90", (sortDesc samples).getD (samples.length * 10 / 100) ⟨0, ""⟩) ∈ fr.plines) ∧
      (samples.length * 10 / 100 = 0 → "p90" ∉ fr.plines.map Prod.fst) := by
  obtain ⟨hts, hcnt⟩ := foldl_recordSample_stats samples initStats
  have hts2 : (List.foldl recordSample initStats samples).timesAll = samples := by
    simpa [initStats] using hts
  have hcnt2 : (List.foldl recordSample initStats samples).count = samples.length := by
    simpa [initStats] using hcnt
  have hlen0 : samples.length ≠ 0 := fun h => hne (List.length_eq_zero.1 h)
  have hperm := sortDesc_perm samples
  have hslen : (sortDesc samples).length = samples.length := hperm.length_eq
  rcases hsort : sortDesc samples with _ | ⟨s0, tl⟩
  · rw [hsort] at hslen
    exact absurd hslen.symm hlen0
  have hc0 : (List.foldl recordSample initStats samples).count ≠ 0 := by
    rw [hcnt2]
    exact hlen0
  refine ⟨{ percentUnder1 := ((samples.length : ℚ) - (scanOver1 (s0 :: tl) : ℚ)) /
              (samples.length : ℚ) * 100,
            longest := s0,
            plines := pIndexLines (s0 :: tl) (samples.length * 1 / 100)
              (samples.length * 5 / 100) (samples.length * 10 / 100) },
    ?_, ?_, ?_, ?_, ?_, ?_, ?_, ?_, ?_, ?_⟩
  · unfold finalReport
    rw [if_neg hc0, hts2, hsort, hcnt2]
  · have hsorted : List.Sorted slower (s0 :: tl) := hsort ▸ sortDesc_sorted samples
    have hscan : scanOver1 (s0 :: tl) =
        (s0 :: tl).countP (fun s => !decide (s.lat ≤ 1)) := scanOver1_eq_countP _ hsorted
    have hpermc : (s0 :: tl).Perm samples := hsort ▸ hperm
    have hcp : (s0 :: tl).countP (fun s => !decide (s.lat ≤ 1)) =
        samples.countP (fun s => !decide (s.lat ≤ 1)) := hpermc.countP_eq _
    have hadd := countP_not_add (fun s => decide (s.lat ≤ 1)) samples
    have hnum : ((samples.length : ℚ) - (scanOver1 (s0 :: tl) : ℚ)) =
        ((samples.countP fun s => decide (s.lat ≤ 1)) : ℚ) := by
      rw [hscan, hcp]
      have : ((samples.countP fun s => !decide (s.lat ≤ 1)) : ℚ) +
          ((samples.countP fun s => decide (s.lat ≤ 1)) : ℚ) = (samples.length : ℚ) := by
        exact_mod_cast congrArg (Nat.cast (R := ℚ)) hadd
      linarith
    rw [hnum]
  · have hs0 : s0 ∈ sortDesc samples := by
      rw [hsort]
      exact List.mem_cons_self s0 tl
    exact hperm.subset hs0
  · intro s hs
    have hsmem : s ∈ s0 :: tl := by
      rw [← hsort]
      exact (hperm.mem_iff).2 hs
    have hsorted : List.Sorted slower (s0 :: tl) := hsort ▸ sortDesc_sorted samples
    obtain ⟨hhead, _⟩ := List.sorted_cons.1 hsorted
    rcases List.mem_cons.1 hsmem with h | h
    · subst h
      exact le_refl _
    · exact hhead s h
  · intro h1
    exact pline_mem99 _ _ _ _ h1
      (Nat.div_le_div_right (Nat.mul_le_mul_left samples.length (by norm_num)))
  · intro h0 hmem
    obtain ⟨pr, hpr, hfst⟩ := List.mem_map.1 hmem
    rcases pline_mem_inv _ _ _ _ pr hpr with ⟨heq, hge⟩ | ⟨heq, hge⟩ | ⟨heq, hge⟩
    · omega
    · rw [heq] at hfst
      exact absurd hfst (by decide)
    · rw [heq] at hfst
      exact absurd hfst (by decide)
  · intro h1
    exact pline_mem95 _ _ _ _ h1
      (Nat.div_le_div_right (Nat.mul_le_mul_left samples.length (by norm_num)))
  · intro h0 hmem
    obtain ⟨pr, hpr, hfst⟩ := List.mem_map.1 hmem
    rcases pline_mem_inv _ _ _ _ pr hpr with ⟨heq, hge⟩ | ⟨heq, hge⟩ | ⟨heq, hge⟩
    · rw [heq] at hfst
      exact absurd hfst (by decide)
    · omega
    · rw [heq] at hfst
      exact absurd hfst (by decide)
  · intro h1
    exact pline_mem90 _ _ _ _ h1
  · intro h0 hmem
    obtain ⟨pr, hpr, hfst⟩ := List.mem_map.1 hmem
    rcases pline_mem_inv _ _ _ _ pr hpr with ⟨heq, hge⟩ | ⟨heq, hge⟩ | ⟨heq, hge⟩
    · rw [heq] at hfst
      exact absurd hfst (by decide)
    · rw [heq] at hfst
      exact absurd hfst (by decide)
    · omega

/-- C6 amended, witness: the amended theorem applied to the 30-sample history
(the hypothesis of a nonempty history discharged concretely). -/
theorem C6_amended_witness :
    samples30 ≠ [] ∧
    ∃ fr, finalReport (List.foldl recordSample initStats samples30) = .ok fr := by
  refine ⟨by decide, ?_⟩
  obtain ⟨fr, hfr, -⟩ := C6_amended samples30 (by decide)
  exact ⟨fr, hfr⟩

end SzSemanticSearch
